import Mathlib

/-!
Verification development for the codecompass repository analysis pipeline.

The TypeScript source is shallowly embedded: JavaScript strings are modelled
as `List Char` (with `String` at record boundaries), JavaScript string
operations (`split`, `trim`, `startsWith`, regular-expression matches used by
the heuristic Python parser) are translated to structural Lean functions, and
fallible operations are modelled with `Option`/`Except`.  Stateful services
(the job queue, the analysis handler, file discovery) become explicit state
passing.  External collaborators (the babel parser, the file system, the
database) are universally quantified parameters or explicit input data.
-/

namespace CodeCompass

/-! ## JavaScript string primitives -/

/-- JS `\s` character class (ASCII fragment used by the source). -/
def isJsWs (c : Char) : Bool := c.isWhitespace

/-- The regex character class `[a-zA-Z0-9_]`. -/
def isIdentChar (c : Char) : Bool := c.isAlphanum || c == '_'

/-- Does the char list start with a whitespace character? -/
def headIsWs : List Char → Bool
  | c :: _ => isJsWs c
  | [] => false

/-- JS `String.prototype.trim` on a char list. -/
def trimChars (cs : List Char) : List Char :=
  ((cs.dropWhile isJsWs).reverse.dropWhile isJsWs).reverse

/-- Fuel-indexed worker for `splitSep`; the accumulator holds the current
segment reversed.  The fuel is an upper bound on the number of consumed
characters, so the `0` case is unreachable from `splitSep`. -/
def splitSepAux (sep : List Char) : Nat → List Char → List Char → List (List Char)
  | _, [], acc => [acc.reverse]
  | 0, cs, acc => [acc.reverse ++ cs]
  | fuel + 1, c :: rest, acc =>
    if sep.isPrefixOf (c :: rest) then
      acc.reverse :: splitSepAux sep fuel ((c :: rest).drop sep.length) []
    else
      splitSepAux sep fuel rest (c :: acc)

/-- JS `String.prototype.split` with a non-empty separator string. -/
def splitSep (sep cs : List Char) : List (List Char) :=
  splitSepAux sep cs.length cs []

/-- JS `String.prototype.startsWith`. -/
def startsWithSeq (sep cs : List Char) : Bool := sep.isPrefixOf cs

/-- JS `String.prototype.endsWith`. -/
def endsWithSeq (sep cs : List Char) : Bool := sep.reverse.isPrefixOf cs.reverse

/-- The `'` character, written via its code point. -/
def apos : Char := Char.ofNat 39

/-- The `'''` Python docstring delimiter. -/
def tripleSingle : List Char := [apos, apos, apos]

/-- The `\"\"\"` Python docstring delimiter. -/
def tripleDouble : List Char := ['"', '"', '"']

/-! ## Parser data model (`parsers/types.ts`) -/

/-- `ParameterInfo` of `parsers/types.ts`; optional TS fields become `Option`. -/
structure ParameterInfo where
  name : String
  type : Option String := none
  optional : Bool := false
  defaultValue : Option String := none
deriving Repr, DecidableEq

/-- `FunctionInfo` of `parsers/types.ts`.  `type` ranges over
`"function" | "method" | "class" | "interface" | "type"`. -/
structure FunctionInfo where
  name : String
  type : String
  signature : String
  docComment : Option String := none
  startLine : Nat
  endLine : Nat
  parameters : Option (List ParameterInfo) := none
  returnType : Option String := none
  isExported : Bool
  isAsync : Option Bool := none
  accessibility : Option String := none
deriving Repr, DecidableEq

/-- `ImportInfo` of `parsers/types.ts`. -/
structure ImportInfo where
  moduleName : String
  importedNames : List String
  isDefaultImport : Bool
  importPath : String
  line : Nat
deriving Repr, DecidableEq

/-- `ExportInfo` of `parsers/types.ts`. -/
structure ExportInfo where
  name : String
  type : String
  line : Nat
deriving Repr, DecidableEq

/-- The `languageFeatures` record of `ParseResult`. -/
structure LanguageFeatures where
  hasClasses : Bool
  hasInterfaces : Bool
  hasTypes : Bool
  hasDecorators : Bool
  usesJSX : Bool
deriving Repr, DecidableEq

/-- `ParseResult` of `parsers/types.ts`; `languageFeatures` is an optional
field (the TypeScript strategy's fatal-parse-error result omits it). -/
structure ParseResult where
  functions : List FunctionInfo
  imports : List ImportInfo
  exports : List ExportInfo
  languageFeatures : Option LanguageFeatures := none
deriving Repr, DecidableEq

/-! ## PythonParser (`parsers/python.parser.ts`) -/

namespace PythonParser

/-- `BaseParser.cleanSignature`: `signature.replace(/\s+/g, ' ').trim()`.
The Boolean argument records whether the previous character was whitespace
(so that one run of whitespace collapses to a single `' '`). -/
def collapseWsAux : List Char → Bool → List Char
  | [], _ => []
  | c :: rest, prevWs =>
    if isJsWs c then
      if prevWs then collapseWsAux rest true
      else ' ' :: collapseWsAux rest true
    else c :: collapseWsAux rest false

/-- `BaseParser.cleanSignature`. -/
def cleanSignature (cs : List Char) : String :=
  String.mk (trimChars (collapseWsAux cs false))

/-- `getIndentLevel`: the length of the match of `/^(\s*)/`. -/
def getIndentLevel (line : List Char) : Nat := (line.takeWhile isJsWs).length

/-- Result of `matchFunction`. -/
structure PyFunctionMatch where
  name : String
  parameters : List ParameterInfo
  isAsync : Bool
deriving Repr, DecidableEq

/-- One parameter entry: `const [paramName, defaultValue] =
p.split('=').map((s) => s.trim()); return { name, optional: !!defaultValue,
defaultValue }`. -/
def mkPyParam (p : List Char) : ParameterInfo :=
  let parts := (splitSep ['='] p).map trimChars
  { name := String.mk (parts.headD [])
    type := none
    optional := match parts[1]? with
      | some d => !d.isEmpty
      | none => false
    defaultValue := (parts[1]?).map String.mk }

/-- The filter `(p) => p && p !== 'self' && p !== 'cls'` on a trimmed entry. -/
def keepParam (p : List Char) : Bool :=
  !p.isEmpty && !(p == "self".data) && !(p == "cls".data)

/-- `paramsStr.split(',').map(trim).filter(keepParam).map(mkPyParam)`. -/
def buildParams (paramsStr : List Char) : List ParameterInfo :=
  (((splitSep [','] paramsStr).map trimChars).filter keepParam).map mkPyParam

/-- The capture groups of `/^(async\s+)?def\s+([a-zA-Z0-9_]+)\s*\(([^)]*)\)/`
on the trimmed line: the async flag, the name capture, and the parameter
capture.  The optional `(async\s+)` group matches exactly when the line
starts with the literal `async` followed by whitespace (otherwise the regex
engine falls back to matching `def` at the start).  The `([^)]*)` capture
runs to the first `)`, which must exist. -/
def matchFunctionCaptures (line : List Char) : Option (Bool × List Char × List Char) :=
  let (isAsync, r1) :=
    if line.take 5 = "async".data ∧ headIsWs (line.drop 5) then
      (true, (line.drop 5).dropWhile isJsWs)
    else (false, line)
  if r1.take 3 = "def".data ∧ headIsWs (r1.drop 3) then
    let r2 := (r1.drop 3).dropWhile isJsWs
    let nameChars := r2.takeWhile isIdentChar
    if nameChars = [] then none
    else
      match (r2.drop nameChars.length).dropWhile isJsWs with
      | '(' :: afterParen =>
        let body := afterParen.takeWhile (· != ')')
        if afterParen.drop body.length = [] then none
        else some (isAsync, nameChars, body)
      | _ => none
  else none

/-- `matchFunction`: assemble the name, the filtered parameter list and the
async flag from the regex captures. -/
def matchFunction (line : List Char) : Option PyFunctionMatch :=
  (matchFunctionCaptures line).map fun c =>
    { name := String.mk c.2.1
      parameters := buildParams c.2.2
      isAsync := c.1 }

/-- `matchClass`: the regex `/^class\s+([a-zA-Z0-9_]+)/` on the trimmed line. -/
def matchClass (line : List Char) : Option String :=
  if line.take 5 = "class".data ∧ headIsWs (line.drop 5) then
    let nameChars := ((line.drop 5).dropWhile isJsWs).takeWhile isIdentChar
    if nameChars = [] then none else some (String.mk nameChars)
  else none

/-- `matchImport` result (the `line` number is added by the caller). -/
structure PyImportMatch where
  moduleName : String
  importedNames : List String
  isDefaultImport : Bool
  importPath : String
deriving Repr, DecidableEq

/-- The character class `[a-zA-Z0-9_.,\s]` of the simple-import regex. -/
def importClassChar (c : Char) : Bool :=
  isIdentChar c || c == '.' || c == ',' || isJsWs c

/-- The character class `[a-zA-Z0-9_.]` of the from-import regex. -/
def moduleChar (c : Char) : Bool := isIdentChar c || c == '.'

/-- Capture group of `/^import\s+([a-zA-Z0-9_.,\s]+)/`.  Since `\s` is part of
the capture's character class, the greedy `\s+` backtracks one character when
the capture would otherwise be empty; the regex then captures that single
whitespace character (this needs at least two whitespace characters). -/
def simpleImportCapture (line : List Char) : Option (List Char) :=
  if line.take 6 = "import".data ∧ headIsWs (line.drop 6) then
    let r := line.drop 6
    let w := r.takeWhile isJsWs
    let t := r.drop w.length
    let cap := t.takeWhile importClassChar
    if cap ≠ [] then some cap
    else if 2 ≤ w.length then some [w.getLastD ' ']
    else none
  else none

/-- Captures of `/^from\s+([a-zA-Z0-9_.]+)\s+import\s+(.+)/` (module name and
the text after `import`). -/
def fromImportCapture (line : List Char) : Option (List Char × List Char) :=
  if line.take 4 = "from".data ∧ headIsWs (line.drop 4) then
    let r := (line.drop 4).dropWhile isJsWs
    let m := r.takeWhile moduleChar
    if m = [] then none
    else
      let r2 := r.drop m.length
      if headIsWs r2 then
        let r3 := r2.dropWhile isJsWs
        if r3.take 6 = "import".data then
          let r4 := r3.drop 6
          let w := r4.takeWhile isJsWs
          if w = [] then none
          else
            let t := r4.drop w.length
            if t ≠ [] then some (m, t)
            else if 2 ≤ w.length then some (m, [w.getLastD ' '])
            else none
        else none
      else none
  else none

/-- `name.trim().split(' as ')[0].trim()` applied to a from-import entry. -/
def splitNameAs (n : List Char) : String :=
  String.mk (trimChars ((splitSep " as ".data (trimChars n)).headD []))

/-- `matchImport`: first the simple-import regex, then the from-import one. -/
def matchImport (line : List Char) : Option PyImportMatch :=
  match simpleImportCapture line with
  | some cap =>
    let modules := (splitSep [','] cap).map (fun mo => String.mk (trimChars mo))
    some { moduleName := modules.headD ""
           importedNames := modules
           isDefaultImport := true
           importPath := modules.headD "" }
  | none =>
    match fromImportCapture line with
    | some (m, cap) =>
      some { moduleName := String.mk m
             importedNames := (splitSep [','] cap).map splitNameAs
             isDefaultImport := false
             importPath := String.mk m }
    | none => none

/-- Inner loop of `extractPythonDocstring`: scan the remaining lines (the
suffix starting right after the opening line) for the closing quote.  When a
line contains the quote, the text before its first occurrence is appended and
the accumulated docstring is trimmed and returned; when the file ends without
a closing quote the JS code falls through and returns `undefined`. -/
def docstringClose (quote : List Char) : List (List Char) → List Char → Option String
  | [], _ => none
  | nextLine :: rest, acc =>
    let parts := splitSep quote nextLine
    if 2 ≤ parts.length then
      some (String.mk (trimChars (acc ++ '\n' :: parts.headD [])))
    else docstringClose quote rest (acc ++ '\n' :: nextLine)

/-- Outer loop of `extractPythonDocstring` over at most
`min(startLine + 5, lines.length) - startLine` lines (the suffix of `lines`
starting at `startLine`).  Comment (`#`) and blank lines are skipped; any
other non-docstring line stops the scan. -/
def docstringScanAux : Nat → List (List Char) → Option String
  | 0, _ => none
  | _, [] => none
  | budget + 1, line :: rest =>
    let l := trimChars line
    if startsWithSeq tripleDouble l ∨ startsWithSeq tripleSingle l then
      let quote := if startsWithSeq tripleDouble l then tripleDouble else tripleSingle
      let ds := l.drop 3
      if endsWithSeq quote ds then some (String.mk (trimChars (ds.take (ds.length - 3))))
      else docstringClose quote rest ds
    else if l ≠ [] ∧ ¬ startsWithSeq ['#'] l then none
    else docstringScanAux budget rest

/-- `extractPythonDocstring(lines, startLine)`. -/
def extractPythonDocstring (lines : List (List Char)) (startLine : Nat) : Option String :=
  docstringScanAux (min (startLine + 5) lines.length - startLine) (lines.drop startLine)

/-- Loop of `findFunctionEnd`, walking the suffix of `lines` that starts at
index `i`; `lastIdx` is `lines.length - 1`, returned when the scan reaches the
end of the file. -/
def findFunctionEndAux (startIndent lastIdx : Nat) : List (List Char) → Nat → Nat
  | [], _ => lastIdx
  | line :: rest, i =>
    if trimChars line = [] then findFunctionEndAux startIndent lastIdx rest (i + 1)
    else if getIndentLevel line ≤ startIndent then i - 1
    else findFunctionEndAux startIndent lastIdx rest (i + 1)

/-- `findFunctionEnd(lines, startLine)`. -/
def findFunctionEnd (lines : List (List Char)) (startLine : Nat) : Nat :=
  findFunctionEndAux (getIndentLevel (lines.getD startLine [])) (lines.length - 1)
    (lines.drop (startLine + 1)) (startLine + 1)

/-- `findClassEnd` simply delegates to `findFunctionEnd`. -/
def findClassEnd (lines : List (List Char)) (startLine : Nat) : Nat :=
  findFunctionEnd lines startLine

/-- Accessibility from the method-name convention (`extractMethods`); the
`startsWith`/`endsWith` checks are on the name's character list. -/
def methodAccessibility (name : String) : String :=
  if startsWithSeq "__".data name.data ∧ ¬ endsWithSeq "__".data name.data then "private"
  else if startsWithSeq ['_'] name.data then "protected"
  else "public"

/-- `extractMethods(lines, classStart, classEnd, className)`: scan lines
`classStart + 1 .. classEnd` (inclusive) for `def` matches. -/
def extractMethods (lines : List (List Char)) (classStart classEnd : Nat)
    (className : String) : List FunctionInfo :=
  (List.range' (classStart + 1) (classEnd - classStart)).filterMap fun i =>
    let line := trimChars (lines.getD i [])
    match matchFunction line with
    | none => none
    | some fm =>
      let acc := methodAccessibility fm.name
      some { name := className ++ "." ++ fm.name
             type := "method"
             signature := cleanSignature line
             docComment := extractPythonDocstring lines (i + 1)
             startLine := i + 1
             endLine := findFunctionEnd lines i + 1
             parameters := some fm.parameters
             isExported := acc == "public"
             isAsync := some fm.isAsync
             accessibility := some acc }

/-- The function fact pushed for line `i` of `parse`'s main loop, if any. -/
def lineFunctionFact (lines : List (List Char)) (i : Nat) : Option FunctionInfo :=
  let trimmedLine := trimChars (lines.getD i [])
  match matchFunction trimmedLine with
  | none => none
  | some fm =>
    some { name := fm.name
           type := "function"
           signature := cleanSignature trimmedLine
           docComment := extractPythonDocstring lines (i + 1)
           startLine := i + 1
           endLine := findFunctionEnd lines i + 1
           parameters := some fm.parameters
           isExported := !startsWithSeq ['_'] fm.name.data
           isAsync := some fm.isAsync }

/-- The class fact (plus its methods) pushed for line `i` of `parse`'s main
loop, if any. -/
def lineClassFacts (lines : List (List Char)) (i : Nat) : List FunctionInfo :=
  let trimmedLine := trimChars (lines.getD i [])
  match matchClass trimmedLine with
  | none => []
  | some cname =>
    let endIdx := findClassEnd lines i
    { name := cname
      type := "class"
      signature := cleanSignature trimmedLine
      docComment := extractPythonDocstring lines (i + 1)
      startLine := i + 1
      endLine := endIdx + 1
      isExported := !startsWithSeq ['_'] cname.data : FunctionInfo }
      :: extractMethods lines i endIdx cname

/-- All function facts produced while visiting line `i`. -/
def lineFacts (lines : List (List Char)) (i : Nat) : List FunctionInfo :=
  (lineFunctionFact lines i).toList ++ lineClassFacts lines i

/-- The import record produced while visiting line `i`, if any. -/
def lineImport (lines : List (List Char)) (i : Nat) : Option ImportInfo :=
  match matchImport (trimChars (lines.getD i [])) with
  | none => none
  | some im =>
    some { moduleName := im.moduleName
           importedNames := im.importedNames
           isDefaultImport := im.isDefaultImport
           importPath := im.importPath
           line := i + 1 }

/-- The number of lines `sourceCode.split('\n')` produces. -/
def lineCount (sourceCode : String) : Nat := (splitSep ['\n'] sourceCode.data).length

/-- `PythonParser.parse`. -/
def parse (sourceCode : String) : ParseResult :=
  let lines := splitSep ['\n'] sourceCode.data
  let functions := (List.range lines.length).flatMap (lineFacts lines)
  let imports := (List.range lines.length).filterMap (lineImport lines)
  { functions := functions
    imports := imports
    exports := []
    languageFeatures := some
      { hasClasses := functions.any (fun f => f.type == "class")
        hasInterfaces := false
        hasTypes := false
        hasDecorators := sourceCode.data.contains '@'
        usesJSX := false } }

end PythonParser

/-! ## JavaScript thrown values -/

/-- A value thrown by JavaScript code: either an `Error` carrying a message,
or any other thrown value. -/
inductive JsError where
  | err (message : String)
  | nonError
deriving Repr, DecidableEq

/-- `error instanceof Error ? error.message : 'Unknown error'`, the message
extraction used by both `JobQueueService.processJob` and
`RepositoryService.handleAnalyzeJob`. -/
def jsErrorMessage : JsError → String
  | .err m => m
  | .nonError => "Unknown error"

/-! ## ParserService (`parsers/parser.service.ts`, `parsers/base.parser.ts`,
`parsers/typescript.parser.ts`)

The TypeScript strategy delegates to the external babel parser and an AST
traversal; both are modelled as universally quantified parameters: the babel
`parse` call may throw (`Except.error`), and so may the traversal callbacks.
The `try { parse } catch { return empty result }` of `TypeScriptParser.parse`
and the `try { parser.parse } catch { return null }` of
`ParserService.parseFile` are embedded explicitly. -/

namespace ParserService

/-- A registered extractor: its declared extensions and its (possibly
throwing) `parse`. -/
structure ParserImpl where
  supportedExtensions : List String
  parse : String → Except JsError ParseResult

/-- `TypeScriptParser.supportedExtensions`. -/
def tsSupportedExtensions : List String := [".ts", ".tsx", ".js", ".jsx", ".mjs", ".cjs"]

/-- The empty-but-valid result `TypeScriptParser.parse` returns on a fatal
babel parse error (note: no `languageFeatures` field). -/
def emptyTsResult : ParseResult :=
  { functions := [], imports := [], exports := [], languageFeatures := none }

/-- `TypeScriptParser.parse`: babel parse failures are caught and converted
into `emptyTsResult`; the traversal runs outside that `try`. -/
def tsParse {Ast : Type} (babelParse : String → Except JsError Ast)
    (traverseAst : String → Ast → Except JsError ParseResult)
    (sourceCode : String) : Except JsError ParseResult :=
  match babelParse sourceCode with
  | .error _ => .ok emptyTsResult
  | .ok ast => traverseAst sourceCode ast

/-- The `TypeScriptParser` entry of the registry. -/
def typeScriptParser {Ast : Type} (babelParse : String → Except JsError Ast)
    (traverseAst : String → Ast → Except JsError ParseResult) : ParserImpl :=
  { supportedExtensions := tsSupportedExtensions
    parse := tsParse babelParse traverseAst }

/-- The `PythonParser` entry of the registry; its `parse` is a total Lean
function, so it never throws. -/
def pythonParserImpl : ParserImpl :=
  { supportedExtensions := [".py"]
    parse := fun sourceCode => .ok (PythonParser.parse sourceCode) }

/-- `ParserService`'s constructor-built list
`[new TypeScriptParser(), new PythonParser()]`. -/
def parsers {Ast : Type} (babelParse : String → Except JsError Ast)
    (traverseAst : String → Ast → Except JsError ParseResult) : List ParserImpl :=
  [typeScriptParser babelParse traverseAst, pythonParserImpl]

/-- `BaseParser.canParse`. -/
def canParseImpl (p : ParserImpl) (extension : String) : Bool :=
  p.supportedExtensions.contains extension

/-- `ParserService.getParser`: first registered parser declaring the
extension. -/
def getParser (ps : List ParserImpl) (extension : String) : Option ParserImpl :=
  ps.find? (fun p => canParseImpl p extension)

/-- `ParserService.parseFile`: `null` when no parser declares the extension,
and `try { parser.parse } catch { null }` otherwise. -/
def parseFile (ps : List ParserImpl) (sourceCode extension : String) : Option ParseResult :=
  match getParser ps extension with
  | none => none
  | some p =>
    match p.parse sourceCode with
    | .ok r => some r
    | .error _ => none

/-- `ParserService.canParse`. -/
def canParse (ps : List ParserImpl) (extension : String) : Bool :=
  ps.any (fun p => canParseImpl p extension)

end ParserService

/-! ## FileDiscoveryService (`fileDiscovery.service.ts`)

The `fast-glob` enumeration and the per-file `fs.stat` calls are external:
the enumeration outcome is the `globResult` input (an `Except`, since an
unreadable root makes the whole discovery fail), and each candidate carries
its stat outcome (`none` = `fs.stat` threw, per-file skip). -/

namespace FileDiscovery

/-- `FileInfo` of `fileDiscovery.service.ts`. -/
structure FileInfo where
  path : String
  relativePath : String
  language : String
  size : Nat
  extension : String
deriving Repr, DecidableEq

/-- The `stats` record of `DiscoveryResult`. -/
structure DiscoveryStats where
  totalFiles : Nat
  totalSize : Nat
  languageBreakdown : List (String × Nat)
deriving Repr, DecidableEq

/-- `DiscoveryResult` of `fileDiscovery.service.ts`.  The JS
`Record<string, number>` breakdown is modelled as an association list in
object-key insertion order (which is what `Object.entries` later observes). -/
structure DiscoveryResult where
  files : List FileInfo
  stats : DiscoveryStats
deriving Repr, DecidableEq

/-- The static `languageMap` table. -/
def languageMap : List (String × String) :=
  [(".ts", "typescript"), (".tsx", "typescript"),
   (".js", "javascript"), (".jsx", "javascript"), (".mjs", "javascript"), (".cjs", "javascript"),
   (".py", "python"), (".java", "java"), (".go", "go"), (".rs", "rust"),
   (".c", "c"), (".cpp", "cpp"), (".cc", "cpp"), (".h", "c"), (".hpp", "cpp"),
   (".cs", "csharp"), (".php", "php"), (".rb", "ruby"), (".swift", "swift"),
   (".kt", "kotlin"), (".scala", "scala"),
   (".sh", "shell"), (".bash", "shell"), (".zsh", "shell"),
   (".json", "json"), (".yaml", "yaml"), (".yml", "yaml"), (".xml", "xml"),
   (".html", "html"), (".css", "css"), (".scss", "scss"), (".sass", "sass"),
   (".less", "less"), (".md", "markdown"), (".sql", "sql")]

/-- `getLanguage`: `languageMap[extension] || 'unknown'`. -/
def getLanguage (extension : String) : String :=
  ((languageMap.find? (fun e => e.1 == extension)).map (fun e => e.2)).getD "unknown"

/-- Node `path.extname` on the basename: the suffix from the last `.`,
except that a dot-initial basename (hidden file) or a dot-free basename has
extension `""`.  (Pure-dot basenames such as `..` never occur among glob file
results.) -/
def extnameChars (p : List Char) : List Char :=
  let base := (splitSep ['/'] p).getLastD []
  let afterDot := base.reverse.takeWhile (· != '.')
  if afterDot.length = base.length then []
  else if afterDot.length + 1 = base.length then []
  else '.' :: afterDot.reverse

/-- `path.extname(file).toLowerCase()`. -/
def extnameLower (relPath : String) : String :=
  String.mk ((extnameChars relPath.data).map Char.toLower)

/-- `path.join(projectPath, file)` (separator insertion; normalization of the
two already-clean segments is the identity here). -/
def pathJoin (a b : String) : String := a ++ "/" ++ b

/-- One enumerated candidate file together with its `fs.stat` outcome
(`none` = the stat threw and the file is skipped). -/
structure CandidateFile where
  relPath : String
  statSize : Option Nat
deriving Repr, DecidableEq

/-- The per-file body of `discoverFiles`'s loop: skip on stat failure, on
size > 1 MiB, on size 0, and on unrecognized language; otherwise build the
`FileInfo`. -/
def processCandidate (projectPath : String) (c : CandidateFile) : Option FileInfo :=
  match c.statSize with
  | none => none
  | some size =>
    if 1024 * 1024 < size then none
    else if size = 0 then none
    else
      let ext := extnameLower c.relPath
      let language := getLanguage ext
      if language = "unknown" then none
      else some { path := pathJoin projectPath c.relPath
                  relativePath := c.relPath
                  language := language
                  size := size
                  extension := ext }

/-- The loop accumulator (`fileInfos`, `totalSize`, `languageBreakdown`). -/
structure DiscoveryAcc where
  files : List FileInfo
  totalSize : Nat
  languageBreakdown : List (String × Nat)
deriving Repr, DecidableEq

/-- `languageBreakdown[language] = (languageBreakdown[language] || 0) + 1`:
bump an existing key in place, or append a new key. -/
def bumpLanguage (bd : List (String × Nat)) (lang : String) : List (String × Nat) :=
  if bd.any (fun e => e.1 == lang) then
    bd.map (fun e => if e.1 == lang then (e.1, e.2 + 1) else e)
  else bd ++ [(lang, 1)]

/-- One iteration of `discoverFiles`'s loop. -/
def discoverStep (projectPath : String) (acc : DiscoveryAcc) (c : CandidateFile) : DiscoveryAcc :=
  match processCandidate projectPath c with
  | none => acc
  | some fi =>
    { files := acc.files ++ [fi]
      totalSize := acc.totalSize + fi.size
      languageBreakdown := bumpLanguage acc.languageBreakdown fi.language }

/-- `discoverFiles`: an enumeration failure is wrapped into the discovery
error; otherwise the candidates are folded into the result. -/
def discoverFiles (projectPath : String) (globResult : Except JsError (List CandidateFile)) :
    Except String DiscoveryResult :=
  match globResult with
  | .error e => .error ("Failed to discover files: " ++ jsErrorMessage e)
  | .ok candidates =>
    let acc := candidates.foldl (discoverStep projectPath) ⟨[], 0, []⟩
    .ok { files := acc.files
          stats := { totalFiles := acc.files.length
                     totalSize := acc.totalSize
                     languageBreakdown := acc.languageBreakdown } }

/-- `getPrimaryLanguage`: `Object.entries`, stable sort by count descending
(`(a, b) => b[1] - a[1]`), first entry; `"unknown"` when empty.  The stable
JS `Array.prototype.sort` is modelled by `List.mergeSort`. -/
def getPrimaryLanguage (languageBreakdown : List (String × Nat)) : String :=
  if languageBreakdown.isEmpty then "unknown"
  else ((languageBreakdown.mergeSort (fun a b => decide (b.2 ≤ a.2))).headD ("unknown", 0)).1

end FileDiscovery

/-! ## JobQueueService (`services/jobQueue.service.ts`)

`Date` values are abstract instants (`Nat`) supplied by the caller; the
opaque `data` payload (`any`, merged by `updateJobProgress`) carries no
information relevant to the verified claims and is not modelled. -/

namespace JobQueue

/-- `JobStatus`. -/
inductive JobStatus where
  | pending
  | processing
  | completed
  | failed
deriving Repr, DecidableEq

/-- `JobType`. -/
inductive JobType where
  | analyze_repository
  | generate_embeddings
deriving Repr, DecidableEq

/-- The string form of a `JobType` (used in the no-handler error message). -/
def jobTypeName : JobType → String
  | .analyze_repository => "analyze_repository"
  | .generate_embeddings => "generate_embeddings"

/-- The `Job` record. -/
structure Job where
  id : String
  type : JobType
  projectId : String
  status : JobStatus
  progress : Int
  error : Option String := none
  createdAt : Nat
  startedAt : Option Nat := none
  completedAt : Option Nat := none
deriving Repr, DecidableEq

/-- `addJob`: status `pending`, progress 0, creation timestamp. -/
def addJob (id : String) (t : JobType) (projectId : String) (now : Nat) : Job :=
  { id := id, type := t, projectId := projectId, status := .pending,
    progress := 0, createdAt := now }

/-- `Math.min(100, Math.max(0, progress))`. -/
def clampProgress (v : Int) : Int := min 100 (max 0 v)

/-- `updateJobProgress` on a tracked job (for an unknown id the method is a
no-op and no job changes). -/
def updateJobProgress (j : Job) (v : Int) : Job :=
  { j with progress := clampProgress v }

/-- `completeJob(jobId, error?)`: `failed` with the error kept and progress
frozen, or `completed` with progress forced to 100. -/
def completeJob (now : Nat) (j : Job) (e : Option String) : Job :=
  { j with
    status := if e.isSome then .failed else .completed
    progress := match e with
      | some _ => j.progress
      | none => 100
    completedAt := some now
    error := match e with
      | some m => some m
      | none => j.error }

/-- The `job.status = 'processing'; job.startedAt = new Date()` step of
`processJob`. -/
def startProcessing (now : Nat) (j : Job) : Job :=
  { j with status := .processing, startedAt := some now }

/-- The message of the error `processJob` throws when no handler is
registered for the job's type. -/
def noHandlerError (t : JobType) : String :=
  "No handler registered for job type: " ++ jobTypeName t

/-- `cancelJob`: `none` models `return false` (unknown job or not pending —
no mutation); otherwise the pending job fails with the cancellation error. -/
def cancelJob (now : Nat) (j : Job) : Option Job :=
  if j.status ≠ .pending then none
  else some { j with status := .failed, error := some "Cancelled by user",
                     completedAt := some now }

/-- The observable mutations of one tracked job.  `registered` says whether a
handler is registered for the job's type. -/
inductive QueueEvent where
  | startJob
  | failNoHandler
  | reportProgress (value : Int)
  | finishOk
  | finishErr (message : String)
  | cancel
deriving Repr, DecidableEq

/-- One step of the job state machine.  The guards record when the service
emits each event: the drain loop hands `processJob` only a job it found
`pending` (and `processJob` runs synchronously up to the `processing`
assignment, so the status still is `pending` there); with no registered
handler `processJob` throws *before* the `processing` assignment and the
`catch` calls `completeJob` with the no-handler error; `completeJob` for a
handler outcome runs only after the handler invocation, whose start set
`processing` (and nothing resets a `processing` status before completion);
`cancelJob` checks `pending` itself; `updateJobProgress` has no status
guard. -/
def queueStep (now : Nat) (registered : Bool) (j : Job) : QueueEvent → Option Job
  | .startJob =>
    if registered ∧ j.status = .pending then some (startProcessing now j) else none
  | .failNoHandler =>
    if ¬ registered ∧ j.status = .pending then
      some (completeJob now j (some (noHandlerError j.type)))
    else none
  | .reportProgress v => some (updateJobProgress j v)
  | .finishOk => if j.status = .processing then some (completeJob now j none) else none
  | .finishErr m => if j.status = .processing then some (completeJob now j (some m)) else none
  | .cancel => cancelJob now j

/-- The successive states of a job while `processJob` runs it with a
registered handler that performs the progress updates `updates` and then
either resolves (`failure = none`) or rejects with message `failure`. -/
def handlerRun (now : Nat) (j : Job) (updates : List Int) (failure : Option String) : List Job :=
  let states := updates.scanl updateJobProgress (startProcessing now j)
  states ++ [completeJob now (states.getLastD (startProcessing now j)) failure]

/-- The successive states of a job under `processJob`: the no-handler throw
happens before the `processing` assignment, so that path mutates the job
exactly once (`completeJob` with the no-handler error). -/
def processJobTrace (now : Nat) (registered : Bool) (updates : List Int)
    (failure : Option String) (j : Job) : List Job :=
  if registered then handlerRun now j updates failure
  else [completeJob now j (some (noHandlerError j.type))]

end JobQueue

/-! ## RepositoryService (`services/repository.service.ts`)

`handleAnalyzeJob` talks to external collaborators (git clone / zip extract,
the file system, the database); their combined outcome is an input.  What is
embedded is the handler's own control flow: the fixed progress-update
schedule of its stages, the success metadata write-back, and the
catch-block's failure write-back plus re-raise. -/

namespace RepositoryService

open JobQueue

/-- `status` column of the repository (project) record. -/
inductive RepoStatus where
  | pending
  | processing
  | completed
  | failed
deriving Repr, DecidableEq

/-- The repository record fields `handleAnalyzeJob` writes. -/
structure RepoRecord where
  status : RepoStatus
  errorMessage : Option String := none
  storagePath : Option String := none
  primaryLanguage : Option String := none
  totalFiles : Option Nat := none
  totalSize : Option Nat := none
  languages : List (String × Nat) := []
deriving Repr, DecidableEq

/-- The metadata a fully successful pipeline writes back in step 5. -/
structure AnalyzeSuccess where
  storagePath : String
  primaryLanguage : String
  totalFiles : Nat
  totalSize : Nat
  languages : List (String × Nat)
deriving Repr, DecidableEq

/-- The starts `0, step, 2·step, …` of the batch loops
(`for (let i = 0; i < total; i += step)`). -/
def batchStarts (step total : Nat) : List Nat :=
  (List.range total).filter (fun i => i % step = 0)

/-- The values `handleAnalyzeJob` passes to `updateJobProgress`, in program
order: 10 after the status write, 30 after materialization, 50 after
discovery, `50 + floor((i / totalFiles) * 40)` after each file batch,
`90 + floor((i / storedFiles) * 10)` after each parse batch, then 100 after
the metadata write-back. -/
def analyzeProgressValues (totalFiles storedFiles : Nat) : List Int :=
  [10, 30, 50]
    ++ (batchStarts 100 totalFiles).map (fun i => ((50 + 40 * i / totalFiles : Nat) : Int))
    ++ (batchStarts 50 storedFiles).map (fun i => ((90 + 10 * i / storedFiles : Nat) : Int))
    ++ [100]

/-- The states of an `analyze_repository` job over its processing lifetime:
on success the whole schedule runs and the job completes; a failure after the
first `failAfter` updates rejects the handler with the thrown error, which
`processJob` converts into a `failed` completion. -/
def analyzeJobTrace (now totalFiles storedFiles : Nat)
    (failAfter : Option (Nat × JsError)) (j : Job) : List Job :=
  match failAfter with
  | none => handlerRun now j (analyzeProgressValues totalFiles storedFiles) none
  | some (k, e) =>
    handlerRun now j ((analyzeProgressValues totalFiles storedFiles).take k)
      (some (jsErrorMessage e))

/-- `handleAnalyzeJob`'s effect on the repository record, together with the
handler's own result (`.error e` = the catch block re-raises `e` after the
failure write-back).  Step 1 writes `processing`; a successful pipeline
writes the completed metadata; the catch block writes `failed` with the
captured message. -/
def handleAnalyzeJobRepo (outcome : Except JsError AnalyzeSuccess)
    (repo : RepoRecord) : RepoRecord × Except JsError Unit :=
  let r1 := { repo with status := RepoStatus.processing }
  match outcome with
  | .ok d =>
    ({ r1 with status := RepoStatus.completed
               storagePath := some d.storagePath
               primaryLanguage := some d.primaryLanguage
               totalFiles := some d.totalFiles
               totalSize := some d.totalSize
               languages := d.languages }, .ok ())
  | .error e =>
    ({ r1 with status := RepoStatus.failed
               errorMessage := some (jsErrorMessage e) }, .error e)

/-- `processJob` running `handleAnalyzeJob`: start the job, apply the
handler's progress updates, run the handler's repo effect, and convert a
re-raised error into a `failed` completion.  The plain (non-`Except`) return
type is the embedding of the orchestrator's `try/catch`: no exception
escapes `processJob`. -/
def processAnalyzeJob (now : Nat) (updates : List Int)
    (outcome : Except JsError AnalyzeSuccess) (j : Job) (repo : RepoRecord) :
    Job × RepoRecord :=
  let j1 := updates.foldl updateJobProgress (startProcessing now j)
  let (repo2, hres) := handleAnalyzeJobRepo outcome repo
  match hres with
  | .ok _ => (completeJob now j1 none, repo2)
  | .error e => (completeJob now j1 (some (jsErrorMessage e)), repo2)

end RepositoryService

/-! ## Concrete sample values used by witnesses -/

open JobQueue RepositoryService ParserService FileDiscovery PythonParser in
/-- A freshly enqueued job (`addJob`), used as a concrete input. -/
def sampleJob : JobQueue.Job :=
  JobQueue.addJob "job_1" JobQueue.JobType.analyze_repository "p1" 0

/-! ## Claims -/

open PythonParser ParserService FileDiscovery JobQueue RepositoryService

/-- C7: extracting the Python source `def _helper(x, y=1):` followed by an
indented `\"\"\"doc\"\"\"` line and an indented `return x` line yields exactly
one structural fact: name `_helper`, kind `function`, not exported (leading
underscore), parameters `x` (not optional) and `y` (optional, with default),
and doc comment `doc`. -/
theorem python_underscore_helper_scenario :
    (PythonParser.parse "def _helper(x, y=1):\n    \"\"\"doc\"\"\"\n    return x").functions =
      [{ name := "_helper"
         type := "function"
         signature := "def _helper(x, y=1):"
         docComment := some "doc"
         startLine := 1
         endLine := 3
         parameters := some
           [{ name := "x" },
            { name := "y", optional := true, defaultValue := some "1" }]
         returnType := none
         isExported := false
         isAsync := some false
         accessibility := none }] := by
  decide

/-- C6: when the analysis pipeline re-raises an exception, the repository
record is written `failed` with the captured human-readable message, the
handler re-raises the same error, and the orchestrator (whose `try/catch` is
embedded in the total function `processAnalyzeJob`) records the job `failed`
with the same message — consistent terminal states, no escaping exception. -/
theorem analyze_failure_consistent_terminal (now : Nat) (updates : List Int)
    (e : JsError) (j : Job) (repo : RepoRecord) :
    (processAnalyzeJob now updates (.error e) j repo).1.status = JobStatus.failed ∧
    (processAnalyzeJob now updates (.error e) j repo).2.status = RepoStatus.failed ∧
    (processAnalyzeJob now updates (.error e) j repo).1.error = some (jsErrorMessage e) ∧
    (processAnalyzeJob now updates (.error e) j repo).2.errorMessage = some (jsErrorMessage e) ∧
    (handleAnalyzeJobRepo (.error e) repo).2 = .error e := by
  simp [processAnalyzeJob, handleAnalyzeJobRepo, completeJob]

/-- C2 counterexample: a pending job whose type has no registered handler is
taken directly from `pending` to `failed` by `processJob` (the no-handler
throw happens before the `processing` assignment, so the job is never
`processing` and `startedAt` is never set), and that system event is not a
cancellation — refuting the claim that cancellation is the only direct
`pending → failed` transition. -/
theorem pending_to_failed_without_cancel_cex :
    sampleJob.status = JobStatus.pending ∧
    (JobQueue.processJobTrace 1 false [] none sampleJob).map JobQueue.Job.status =
      [JobStatus.failed] ∧
    (JobQueue.processJobTrace 1 false [] none sampleJob).map JobQueue.Job.startedAt =
      [none] ∧
    (JobQueue.queueStep 1 false sampleJob QueueEvent.failNoHandler).map JobQueue.Job.status =
      some JobStatus.failed ∧
    QueueEvent.failNoHandler ≠ QueueEvent.cancel := by
  decide

/-- C2 (amended): the only direct `pending → failed` transitions are an
explicit cancellation and the immediate no-handler failure (which throws
before the `processing` assignment); cancellation mutates nothing unless the
job is still pending; and a handler-exception failure is only ever recorded
on a job that is already `processing`. -/
theorem pending_to_failed_only_cancel_or_no_handler :
    (∀ (now : Nat) (registered : Bool) (j j' : Job) (e : QueueEvent),
      queueStep now registered j e = some j' →
      j.status = JobStatus.pending → j'.status = JobStatus.failed →
      e = QueueEvent.cancel ∨ e = QueueEvent.failNoHandler) ∧
    (∀ (now : Nat) (j : Job), j.status ≠ JobStatus.pending → cancelJob now j = none) ∧
    (∀ (now : Nat) (registered : Bool) (j j' : Job) (m : String),
      queueStep now registered j (QueueEvent.finishErr m) = some j' →
      j.status = JobStatus.processing) := by
  refine ⟨?_, ?_, ?_⟩
  · intro now registered j j' e hstep hpend hfail
    cases e with
    | startJob =>
      simp only [queueStep] at hstep
      split at hstep
      · cases hstep
        simp [startProcessing] at hfail
      · simp at hstep
    | failNoHandler => exact Or.inr rfl
    | reportProgress v =>
      simp only [queueStep] at hstep
      cases hstep
      rw [show (updateJobProgress j v).status = j.status from rfl, hpend] at hfail
      simp at hfail
    | finishOk =>
      simp only [queueStep] at hstep
      split at hstep
      · next h => rw [hpend] at h; simp at h
      · simp at hstep
    | finishErr m =>
      simp only [queueStep] at hstep
      split at hstep
      · next h => rw [hpend] at h; simp at h
      · simp at hstep
    | cancel => exact Or.inl rfl
  · intro now j h
    rw [cancelJob, if_pos h]
  · intro now registered j j' m hstep
    simp only [queueStep] at hstep
    split at hstep
    · next h => exact h
    · simp at hstep

/-- Witness for the amended C2 theorem at a concrete cancellation. -/
theorem pending_to_failed_only_cancel_or_no_handler_witness :
    QueueEvent.cancel = QueueEvent.cancel ∨ QueueEvent.cancel = QueueEvent.failNoHandler :=
  pending_to_failed_only_cancel_or_no_handler.1 1 true sampleJob
    { sampleJob with status := JobStatus.failed, error := some "Cancelled by user",
                     completedAt := some 1 }
    QueueEvent.cancel (by decide) (by decide) (by decide)

/-- C1: `parseFile` is a total function (the embedding of its `try/catch`):
it returns `null` exactly when no registered extractor declares the extension
or the chosen extractor's `parse` throws; and for a TypeScript-family
extension whose babel parse fails fatally, it returns the empty-but-valid
result instead of propagating.  The babel parser and the AST traversal are
arbitrary (universally quantified) external functions. -/
theorem extractFor_null_iff_unsupported_or_throw {Ast : Type}
    (babelParse : String → Except JsError Ast)
    (traverseAst : String → Ast → Except JsError ParseResult)
    (sourceCode extension : String) :
    (parseFile (parsers babelParse traverseAst) sourceCode extension = none ↔
      canParse (parsers babelParse traverseAst) extension = false ∨
      ∃ p e, getParser (parsers babelParse traverseAst) extension = some p ∧
             p.parse sourceCode = .error e) ∧
    (extension ∈ tsSupportedExtensions →
      ∀ msg, babelParse sourceCode = .error msg →
        parseFile (parsers babelParse traverseAst) sourceCode extension =
          some emptyTsResult) := by
  constructor
  · cases hg : getParser (parsers babelParse traverseAst) extension with
    | none =>
      have hgf : List.find? (fun q => canParseImpl q extension)
          (parsers babelParse traverseAst) = none := hg
      simp only [parseFile, hg]
      constructor
      · intro _
        left
        rw [List.find?_eq_none] at hgf
        have : (parsers babelParse traverseAst).any
            (fun q => canParseImpl q extension) = false := by
          rw [List.any_eq_false]
          exact hgf
        exact this
      · intro _
        trivial
    | some p =>
      have hgf : List.find? (fun q => canParseImpl q extension)
          (parsers babelParse traverseAst) = some p := hg
      have hpmem : p ∈ parsers babelParse traverseAst :=
        List.mem_of_find?_eq_some hgf
      have hpcan : canParseImpl p extension = true := by
        have h := List.find?_some hgf
        simpa using h
      cases hp : p.parse sourceCode with
      | ok r =>
        simp only [parseFile, hg, hp]
        constructor
        · intro h
          cases h
        · rintro (hcp | ⟨p', e', hg', hp'⟩)
          · have hany : (parsers babelParse traverseAst).any
                (fun q => canParseImpl q extension) = true :=
              List.any_eq_true.mpr ⟨p, hpmem, hpcan⟩
            rw [show canParse (parsers babelParse traverseAst) extension =
                (parsers babelParse traverseAst).any
                  (fun q => canParseImpl q extension) from rfl, hany] at hcp
            cases hcp
          · cases hg'
            rw [hp] at hp'
            cases hp'
      | error e =>
        simp only [parseFile, hg, hp]
        exact ⟨fun _ => Or.inr ⟨p, e, rfl, hp⟩, fun _ => by trivial⟩
  · intro hmem msg hbp
    have hcan : canParseImpl (typeScriptParser babelParse traverseAst) extension = true :=
      List.elem_eq_true_of_mem hmem
    have hfind : getParser (parsers babelParse traverseAst) extension =
        some (typeScriptParser babelParse traverseAst) :=
      List.find?_cons_of_pos (p := fun q => canParseImpl q extension) _ hcan
    have hparse : (typeScriptParser babelParse traverseAst).parse sourceCode =
        .ok emptyTsResult := by
      show tsParse babelParse traverseAst sourceCode = .ok emptyTsResult
      rw [tsParse, hbp]
    simp only [parseFile, hfind, hparse]

/-- C5: `getPrimaryLanguage` returns `"unknown"` on an empty breakdown; on a
non-empty breakdown it returns a language of maximal file count; being a pure
function it is repeatable across calls, and ties are broken stably (the
stable `mergeSort` keeps the first-inserted language among those of maximal
count — `{python: 5, go: 5}` always yields `"python"`). -/
theorem getPrimaryLanguage_spec :
    getPrimaryLanguage [] = "unknown" ∧
    (∀ bd : List (String × Nat), bd ≠ [] →
      ∃ e ∈ bd, getPrimaryLanguage bd = e.1 ∧ ∀ f ∈ bd, f.2 ≤ e.2) ∧
    getPrimaryLanguage [("python", 5), ("go", 5)] = "python" := by
  have htrans : ∀ a b c : String × Nat, decide (b.2 ≤ a.2) = true →
      decide (c.2 ≤ b.2) = true → decide (c.2 ≤ a.2) = true := by
    intro a b c hab hbc
    simp only [decide_eq_true_eq] at *
    omega
  have htotal : ∀ a b : String × Nat,
      (decide (b.2 ≤ a.2) || decide (a.2 ≤ b.2)) = true := by
    intro a b
    simp only [Bool.or_eq_true, decide_eq_true_eq]
    omega
  refine ⟨rfl, ?_, ?_⟩
  · intro bd hbd
    have hperm := List.mergeSort_perm bd (fun a b => decide (b.2 ≤ a.2))
    cases hs : bd.mergeSort (fun a b => decide (b.2 ≤ a.2)) with
    | nil =>
      rw [hs] at hperm
      exact absurd hperm.symm.eq_nil hbd
    | cons e rest =>
      have hmem : e ∈ bd := by
        have he : e ∈ bd.mergeSort (fun a b => decide (b.2 ≤ a.2)) := by
          rw [hs]
          exact List.mem_cons_self e rest
        exact List.mem_mergeSort.mp he
      have hsorted := @List.sorted_mergeSort (String × Nat)
        (fun a b => decide (b.2 ≤ a.2)) htrans htotal bd
      rw [hs] at hsorted
      have hhead := (List.pairwise_cons.mp hsorted).1
      refine ⟨e, hmem, ?_, ?_⟩
      · rw [getPrimaryLanguage, if_neg (by simp [List.isEmpty_iff, hbd]), hs]
        rfl
      · intro f hf
        have hfs : f ∈ e :: rest := by
          rw [← hs]
          exact List.mem_mergeSort.mpr hf
        rcases List.mem_cons.mp hfs with rfl | hrest
        · exact le_refl _
        · exact of_decide_eq_true (hhead f hrest)
  · have hself : ([("python", 5), ("go", 5)] : List (String × Nat)).mergeSort
        (fun a b => decide (b.2 ≤ a.2)) = [("python", 5), ("go", 5)] :=
      List.mergeSort_of_sorted (by decide)
    rw [getPrimaryLanguage, if_neg (by decide), hself]
    rfl

/-- Witness for the non-empty-breakdown conjunct of C5 at a concrete
breakdown. -/
theorem getPrimaryLanguage_spec_witness :
    (([("go", 2)] : List (String × Nat)) ≠ []) ∧
    ∃ e ∈ ([("go", 2)] : List (String × Nat)),
      getPrimaryLanguage [("go", 2)] = e.1 ∧ ∀ f ∈ ([("go", 2)] : List (String × Nat)), f.2 ≤ e.2 :=
  ⟨by decide, getPrimaryLanguage_spec.2.1 [("go", 2)] (by decide)⟩

/-- Per-file guarantee behind C4: any `FileInfo` the discovery loop body
produces has positive size, size at most 1 MiB, and a recognized language. -/
theorem processCandidate_spec (projectPath : String) (c : CandidateFile) (fi : FileInfo)
    (h : processCandidate projectPath c = some fi) :
    0 < fi.size ∧ fi.size ≤ 1024 * 1024 ∧ fi.language ≠ "unknown" := by
  simp only [processCandidate] at h
  cases hc : c.statSize with
  | none =>
    simp only [hc] at h
    cases h
  | some size =>
    simp only [hc] at h
    by_cases hbig : 1024 * 1024 < size
    · rw [if_pos hbig] at h
      cases h
    rw [if_neg hbig] at h
    by_cases hzero : size = 0
    · rw [if_pos hzero] at h
      cases h
    rw [if_neg hzero] at h
    by_cases hunk : getLanguage (extnameLower c.relPath) = "unknown"
    · rw [if_pos hunk] at h
      cases h
    rw [if_neg hunk] at h
    cases h
    refine ⟨?_, ?_, hunk⟩
    · show 0 < size
      omega
    · show size ≤ 1024 * 1024
      omega

/-- C4: on a successful discovery, every returned `FileInfo` has
`0 < size ≤ 1 MiB` (default maximum) and a language other than `"unknown"`
(zero-size, oversized, stat-failing and unrecognized files are skipped,
not errors). -/
theorem discovered_files_filtered (projectPath : String)
    (globResult : Except JsError (List CandidateFile)) (res : DiscoveryResult)
    (h : discoverFiles projectPath globResult = .ok res) :
    ∀ fi ∈ res.files, 0 < fi.size ∧ fi.size ≤ 1024 * 1024 ∧ fi.language ≠ "unknown" := by
  cases globResult with
  | error e =>
    exact absurd h (by simp [discoverFiles])
  | ok candidates =>
    have hres : res.files =
        (candidates.foldl (discoverStep projectPath) ⟨[], 0, []⟩).files := by
      simp only [discoverFiles] at h
      cases h
      rfl
    rw [hres]
    have key : ∀ (cs : List CandidateFile) (acc : DiscoveryAcc),
        (∀ fi ∈ acc.files, 0 < fi.size ∧ fi.size ≤ 1024 * 1024 ∧ fi.language ≠ "unknown") →
        ∀ fi ∈ (cs.foldl (discoverStep projectPath) acc).files,
          0 < fi.size ∧ fi.size ≤ 1024 * 1024 ∧ fi.language ≠ "unknown" := by
      intro cs
      induction cs with
      | nil => exact fun acc hacc => hacc
      | cons c rest ih =>
        intro acc hacc
        rw [List.foldl_cons]
        apply ih
        cases hpc : processCandidate projectPath c with
        | none =>
          simpa only [discoverStep, hpc] using hacc
        | some fi =>
          simp only [discoverStep, hpc]
          intro g hg
          rcases List.mem_append.mp hg with h1 | h2
          · exact hacc g h1
          · rw [List.mem_singleton] at h2
            subst h2
            exact processCandidate_spec projectPath c g hpc
    exact key candidates ⟨[], 0, []⟩ (by intro fi hfi; cases hfi)

/-- A concrete discovery candidate for the C4 witness. -/
def sampleCandidate : CandidateFile := { relPath := "a.ts", statSize := some 10 }

/-- The `FileInfo` that discovering `sampleCandidate` produces. -/
def sampleFileInfo : FileDiscovery.FileInfo :=
  { path := "/repo/a.ts", relativePath := "a.ts", language := "typescript",
    size := 10, extension := ".ts" }

/-- The full result of discovering `sampleCandidate` under root `/repo`. -/
def sampleDiscovery : DiscoveryResult :=
  { files := [sampleFileInfo]
    stats := { totalFiles := 1, totalSize := 10, languageBreakdown := [("typescript", 1)] } }

/-- Witness for C4 at a concrete one-file discovery. -/
theorem discovered_files_filtered_witness :
    0 < sampleFileInfo.size ∧ sampleFileInfo.size ≤ 1024 * 1024 ∧
    sampleFileInfo.language ≠ "unknown" :=
  discovered_files_filtered "/repo" (.ok [sampleCandidate]) sampleDiscovery
    rfl sampleFileInfo (by decide)

/-- The Boolean parameter filter agrees with the propositional exclusion of
empty, `self` and `cls` entries. -/
theorem keepParam_eq_decide (p : List Char) :
    keepParam p = decide (¬ (p = [] ∨ p = "self".data ∨ p = "cls".data)) := by
  by_cases h1 : p = [] <;> by_cases h2 : p = "self".data <;> by_cases h3 : p = "cls".data <;>
    simp [keepParam, List.isEmpty_iff, h1, h2, h3]

/-- C10: for every matched `def` line, the extracted parameter list is the
comma-split, trimmed entries of the line's own `([^)]*)` capture (the third
component of `matchFunctionCaptures`) with exactly the bare `self` and `cls`
names and empty entries excluded; all other entries are kept, in order. -/
theorem matchFunction_filters_self_cls (line : List Char) (isAsync : Bool)
    (nameChars raw : List Char)
    (hcap : matchFunctionCaptures line = some (isAsync, nameChars, raw))
    (fm : PyFunctionMatch) (h : matchFunction line = some fm) :
    fm.parameters =
      (((splitSep [','] raw).map trimChars).filter
        (fun p => decide (¬ (p = [] ∨ p = "self".data ∨ p = "cls".data)))).map mkPyParam ∧
    ∀ p ∈ (splitSep [','] raw).map trimChars,
      p ≠ [] → p ≠ "self".data → p ≠ "cls".data → mkPyParam p ∈ fm.parameters := by
  rw [matchFunction, hcap, Option.map_some'] at h
  have hfm : fm.parameters = buildParams raw := by
    cases h
    rfl
  constructor
  · rw [hfm, buildParams, List.filter_congr (fun p _ => keepParam_eq_decide p)]
  · intro p hp hne hself hcls
    rw [hfm, buildParams]
    refine List.mem_map.mpr ⟨p, List.mem_filter.mpr ⟨hp, ?_⟩, rfl⟩
    rw [keepParam_eq_decide]
    simp only [decide_eq_true_eq]
    intro hor
    rcases hor with h1 | h2 | h3
    · exact hne h1
    · exact hself h2
    · exact hcls h3

/-- Witness for C10 at the concrete line `def f(self, x):`, whose `([^)]*)`
capture is `self, x`. -/
theorem matchFunction_filters_self_cls_witness :
    ({ name := "f", parameters := [{ name := "x" }], isAsync := false } :
        PyFunctionMatch).parameters =
      (((splitSep [','] "self, x".data).map trimChars).filter
        (fun p => decide (¬ (p = [] ∨ p = "self".data ∨ p = "cls".data)))).map mkPyParam ∧
    ∀ p ∈ (splitSep [','] "self, x".data).map trimChars,
      p ≠ [] → p ≠ "self".data → p ≠ "cls".data →
        mkPyParam p ∈ ({ name := "f", parameters := [{ name := "x" }], isAsync := false } :
          PyFunctionMatch).parameters :=
  matchFunction_filters_self_cls "def f(self, x):".data false "f".data "self, x".data
    (by decide)
    { name := "f", parameters := [{ name := "x" }], isAsync := false } (by decide)

/-- `List.getD` at an in-range index is the indexed element. -/
theorem getD_eq_of_lt {α : Type} (l : List α) (d : α) (i : Nat) (h : i < l.length) :
    l.getD i d = l[i] := by
  simp [List.getD_eq_getElem?_getD, List.getElem?_eq_getElem h]

/-- The scanning loop of `findFunctionEnd`, characterized: starting at index
`i` (with the remaining lines as the suffix `lines.drop i`), it returns
`j - 1` for the first `j ≥ i` holding a non-blank line whose indentation is
at most `startIndent` — every line strictly between is blank or deeper — and
`lines.length - 1` when no such line exists. -/
theorem findFunctionEndAux_spec (lines : List (List Char)) (ind : Nat) :
    ∀ (suffix : List (List Char)) (i : Nat), suffix = lines.drop i →
    (∃ j, i ≤ j ∧ j < lines.length ∧ trimChars (lines.getD j []) ≠ [] ∧
        getIndentLevel (lines.getD j []) ≤ ind ∧
        (∀ k, i ≤ k → k < j → trimChars (lines.getD k []) = [] ∨
          ind < getIndentLevel (lines.getD k [])) ∧
        findFunctionEndAux ind (lines.length - 1) suffix i = j - 1) ∨
    ((∀ j, i ≤ j → j < lines.length → trimChars (lines.getD j []) ≠ [] →
        ind < getIndentLevel (lines.getD j [])) ∧
      findFunctionEndAux ind (lines.length - 1) suffix i = lines.length - 1) := by
  intro suffix
  induction suffix with
  | nil =>
    intro i hi
    right
    have hle : lines.length ≤ i := List.drop_eq_nil_iff.mp hi.symm
    constructor
    · intro j hij hj _
      omega
    · rfl
  | cons line rest ih =>
    intro i hi
    have hlen : i < lines.length := by
      by_contra hle
      push_neg at hle
      rw [List.drop_eq_nil_of_le hle] at hi
      cases hi
    have hdrop := List.drop_eq_getElem_cons (l := lines) hlen
    rw [hdrop] at hi
    have hline : line = lines[i] := (List.cons.injEq _ _ _ _ ▸ hi).1
    have hrest : rest = lines.drop (i + 1) := (List.cons.injEq _ _ _ _ ▸ hi).2
    have hgetD : lines.getD i [] = line := by
      rw [getD_eq_of_lt lines [] i hlen, hline]
    by_cases htrim : trimChars line = []
    · -- blank line: skip
      have hstep : findFunctionEndAux ind (lines.length - 1) (line :: rest) i =
          findFunctionEndAux ind (lines.length - 1) rest (i + 1) := by
        rw [findFunctionEndAux, if_pos htrim]
      rcases ih (i + 1) hrest with ⟨j, h1, h2, h3, h4, h5, h6⟩ | ⟨h1, h2⟩
      · left
        refine ⟨j, by omega, h2, h3, h4, ?_, by rw [hstep, h6]⟩
        intro k hk1 hk2
        rcases Nat.eq_or_lt_of_le hk1 with rfl | hk
        · left
          rw [hgetD]
          exact htrim
        · exact h5 k (by omega) hk2
      · right
        refine ⟨?_, by rw [hstep, h2]⟩
        intro j hj1 hj2 hj3
        rcases Nat.eq_or_lt_of_le hj1 with rfl | hj
        · rw [hgetD] at hj3
          exact absurd htrim hj3
        · exact h1 j (by omega) hj2 hj3
    · by_cases hind : getIndentLevel line ≤ ind
      · -- first non-blank dedent line: stop at i, return i - 1
        left
        refine ⟨i, le_refl i, hlen, ?_, ?_, ?_, ?_⟩
        · rw [hgetD]
          exact htrim
        · rw [hgetD]
          exact hind
        · intro k hk1 hk2
          omega
        · rw [findFunctionEndAux, if_neg htrim, if_pos hind]
      · -- deeper line: skip
        have hstep : findFunctionEndAux ind (lines.length - 1) (line :: rest) i =
            findFunctionEndAux ind (lines.length - 1) rest (i + 1) := by
          rw [findFunctionEndAux, if_neg htrim, if_neg hind]
        rcases ih (i + 1) hrest with ⟨j, h1, h2, h3, h4, h5, h6⟩ | ⟨h1, h2⟩
        · left
          refine ⟨j, by omega, h2, h3, h4, ?_, by rw [hstep, h6]⟩
          intro k hk1 hk2
          rcases Nat.eq_or_lt_of_le hk1 with rfl | hk
          · right
            rw [hgetD]
            omega
          · exact h5 k (by omega) hk2
        · right
          refine ⟨?_, by rw [hstep, h2]⟩
          intro j hj1 hj2 hj3
          rcases Nat.eq_or_lt_of_le hj1 with rfl | hj
          · rw [hgetD]
            omega
          · exact h1 j (by omega) hj2 hj3

/-- C8: for every recognized `def`/`class` header line, the computed block
end is the last line before the next non-blank line whose indentation is at
most the header line's indentation (blank lines are skipped during the
scan), and the last line of the file when no such line exists. -/
theorem findFunctionEnd_block_extent (lines : List (List Char)) (i : Nat)
    (hi : i < lines.length)
    (hheader : (matchFunction (trimChars (lines.getD i []))).isSome = true ∨
               (matchClass (trimChars (lines.getD i []))).isSome = true) :
    (∃ j, i < j ∧ j < lines.length ∧ trimChars (lines.getD j []) ≠ [] ∧
        getIndentLevel (lines.getD j []) ≤ getIndentLevel (lines.getD i []) ∧
        (∀ k, i < k → k < j → trimChars (lines.getD k []) = [] ∨
          getIndentLevel (lines.getD i []) < getIndentLevel (lines.getD k [])) ∧
        findFunctionEnd lines i = j - 1) ∨
    ((∀ j, i < j → j < lines.length → trimChars (lines.getD j []) ≠ [] →
        getIndentLevel (lines.getD i []) < getIndentLevel (lines.getD j [])) ∧
      findFunctionEnd lines i = lines.length - 1) := by
  have h := findFunctionEndAux_spec lines (getIndentLevel (lines.getD i []))
    (lines.drop (i + 1)) (i + 1) rfl
  rw [findFunctionEnd]
  rcases h with ⟨j, h1, h2, h3, h4, h5, h6⟩ | ⟨h1, h2⟩
  · left
    exact ⟨j, by omega, h2, h3, h4, fun k hk1 hk2 => h5 k (by omega) hk2, h6⟩
  · right
    exact ⟨fun j hj1 hj2 hj3 => h1 j (by omega) hj2 hj3, h2⟩

/-- Witness for C8 on a concrete three-line file: the block of the `def`
header on line index 0 ends at index 1, just before the dedented `x = 2`. -/
theorem findFunctionEnd_block_extent_witness :
    (0 : Nat) < (["def f():".data, "    return 1".data, "x = 2".data] :
        List (List Char)).length ∧
    ((∃ j, 0 < j ∧ j < (["def f():".data, "    return 1".data, "x = 2".data] :
          List (List Char)).length ∧
        trimChars ((["def f():".data, "    return 1".data, "x = 2".data] :
          List (List Char)).getD j []) ≠ [] ∧
        getIndentLevel ((["def f():".data, "    return 1".data, "x = 2".data] :
          List (List Char)).getD j []) ≤
          getIndentLevel ((["def f():".data, "    return 1".data, "x = 2".data] :
            List (List Char)).getD 0 []) ∧
        (∀ k, 0 < k → k < j →
          trimChars ((["def f():".data, "    return 1".data, "x = 2".data] :
            List (List Char)).getD k []) = [] ∨
          getIndentLevel ((["def f():".data, "    return 1".data, "x = 2".data] :
            List (List Char)).getD 0 []) <
            getIndentLevel ((["def f():".data, "    return 1".data, "x = 2".data] :
              List (List Char)).getD k [])) ∧
        findFunctionEnd ["def f():".data, "    return 1".data, "x = 2".data] 0 = j - 1) ∨
      ((∀ j, 0 < j → j < (["def f():".data, "    return 1".data, "x = 2".data] :
            List (List Char)).length →
          trimChars ((["def f():".data, "    return 1".data, "x = 2".data] :
            List (List Char)).getD j []) ≠ [] →
          getIndentLevel ((["def f():".data, "    return 1".data, "x = 2".data] :
            List (List Char)).getD 0 []) <
            getIndentLevel ((["def f():".data, "    return 1".data, "x = 2".data] :
              List (List Char)).getD j [])) ∧
        findFunctionEnd ["def f():".data, "    return 1".data, "x = 2".data] 0 =
          (["def f():".data, "    return 1".data, "x = 2".data] :
            List (List Char)).length - 1)) :=
  ⟨by decide,
   findFunctionEnd_block_extent ["def f():".data, "    return 1".data, "x = 2".data] 0
     (by decide) (Or.inl (by decide))⟩

/-- Bounds of the `findFunctionEnd` scanning loop: the result lies between
`i - 1` and `lines.length - 1`. -/
theorem findFunctionEndAux_bounds (lines : List (List Char)) (ind : Nat) :
    ∀ (suffix : List (List Char)) (i : Nat), suffix = lines.drop i → i ≤ lines.length →
      i - 1 ≤ findFunctionEndAux ind (lines.length - 1) suffix i ∧
      findFunctionEndAux ind (lines.length - 1) suffix i ≤ lines.length - 1 := by
  intro suffix
  induction suffix with
  | nil =>
    intro i _ hle
    rw [findFunctionEndAux]
    omega
  | cons line rest ih =>
    intro i hi hle
    have hlen : i < lines.length := by
      by_contra hc
      push_neg at hc
      rw [List.drop_eq_nil_of_le hc] at hi
      cases hi
    have hrest : rest = lines.drop (i + 1) := by
      rw [List.drop_eq_getElem_cons hlen] at hi
      exact (List.cons.injEq _ _ _ _ ▸ hi).2
    by_cases htrim : trimChars line = []
    · have h := ih (i + 1) hrest (by omega)
      rw [findFunctionEndAux, if_pos htrim]
      omega
    · by_cases hind : getIndentLevel line ≤ ind
      · rw [findFunctionEndAux, if_neg htrim, if_pos hind]
        omega
      · have h := ih (i + 1) hrest (by omega)
        rw [findFunctionEndAux, if_neg htrim, if_neg hind]
        omega

/-- `findFunctionEnd` of an in-range header returns an index between the
header and the last line. -/
theorem findFunctionEnd_bounds (lines : List (List Char)) (i : Nat)
    (hi : i < lines.length) :
    i ≤ findFunctionEnd lines i ∧ findFunctionEnd lines i ≤ lines.length - 1 := by
  have h := findFunctionEndAux_bounds lines (getIndentLevel (lines.getD i []))
    (lines.drop (i + 1)) (i + 1) rfl (by omega)
  rw [findFunctionEnd]
  omega

/-- Line-range bounds for a top-level function fact produced at line `i`. -/
theorem lineFunctionFact_range (lines : List (List Char)) (i : Nat) (f : FunctionInfo)
    (hi : i < lines.length) (h : lineFunctionFact lines i = some f) :
    1 ≤ f.startLine ∧ f.startLine ≤ f.endLine ∧ f.endLine ≤ lines.length := by
  rw [lineFunctionFact] at h
  cases hm : matchFunction (trimChars (lines.getD i [])) with
  | none =>
    rw [hm] at h
    cases h
  | some fm =>
    rw [hm] at h
    cases h
    have hb := findFunctionEnd_bounds lines i hi
    refine ⟨?_, ?_, ?_⟩
    · show 1 ≤ i + 1
      omega
    · show i + 1 ≤ findFunctionEnd lines i + 1
      omega
    · show findFunctionEnd lines i + 1 ≤ lines.length
      omega

/-- Line-range bounds for the method facts extracted from a class body. -/
theorem extractMethods_range (lines : List (List Char)) (cs ce : Nat) (cname : String)
    (hce : ce < lines.length) :
    ∀ f ∈ extractMethods lines cs ce cname,
      1 ≤ f.startLine ∧ f.startLine ≤ f.endLine ∧ f.endLine ≤ lines.length := by
  intro f hf
  rw [extractMethods] at hf
  obtain ⟨k, hk, hsome⟩ := List.mem_filterMap.mp hf
  have hk2 : cs + 1 ≤ k ∧ k < cs + 1 + (ce - cs) := List.mem_range'_1.mp hk
  have hklen : k < lines.length := by omega
  cases hm : matchFunction (trimChars (lines.getD k [])) with
  | none =>
    simp only [hm] at hsome
    cases hsome
  | some fm =>
    simp only [hm] at hsome
    cases hsome
    have hb := findFunctionEnd_bounds lines k hklen
    refine ⟨?_, ?_, ?_⟩
    · show 1 ≤ k + 1
      omega
    · show k + 1 ≤ findFunctionEnd lines k + 1
      omega
    · show findFunctionEnd lines k + 1 ≤ lines.length
      omega

/-- Line-range bounds for the class fact (and its methods) produced at
line `i`. -/
theorem lineClassFacts_range (lines : List (List Char)) (i : Nat) (f : FunctionInfo)
    (hi : i < lines.length) (h : f ∈ lineClassFacts lines i) :
    1 ≤ f.startLine ∧ f.startLine ≤ f.endLine ∧ f.endLine ≤ lines.length := by
  rw [lineClassFacts] at h
  cases hm : matchClass (trimChars (lines.getD i [])) with
  | none =>
    rw [hm] at h
    cases h
  | some cname =>
    simp only [hm] at h
    have hb := findFunctionEnd_bounds lines i hi
    rcases List.mem_cons.mp h with rfl | hmem
    · refine ⟨?_, ?_, ?_⟩
      · show 1 ≤ i + 1
        omega
      · show i + 1 ≤ findClassEnd lines i + 1
        rw [findClassEnd]
        omega
      · show findClassEnd lines i + 1 ≤ lines.length
        rw [findClassEnd]
        omega
    · refine extractMethods_range lines i (findClassEnd lines i) cname ?_ f hmem
      rw [findClassEnd]
      omega

/-- C9: every structural fact (function, class or method) produced by the
Python parser has a 1-based, inclusive line range inside the file:
`1 ≤ startLine ≤ endLine ≤ lineCount`. -/
theorem parse_line_ranges_within_file (sourceCode : String) :
    ∀ f ∈ (PythonParser.parse sourceCode).functions,
      1 ≤ f.startLine ∧ f.startLine ≤ f.endLine ∧ f.endLine ≤ lineCount sourceCode := by
  intro f hf
  have hf' : f ∈ (List.range (splitSep ['\n'] sourceCode.data).length).flatMap
      (lineFacts (splitSep ['\n'] sourceCode.data)) := hf
  obtain ⟨i, hi, hfi⟩ := List.mem_flatMap.mp hf'
  have hilen : i < (splitSep ['\n'] sourceCode.data).length := List.mem_range.mp hi
  rw [lineFacts] at hfi
  rcases List.mem_append.mp hfi with h1 | h2
  · cases hlf : lineFunctionFact (splitSep ['\n'] sourceCode.data) i with
    | none =>
      rw [hlf] at h1
      cases h1
    | some g =>
      rw [hlf] at h1
      have : f = g := by
        simpa using h1
      subst this
      exact lineFunctionFact_range _ i f hilen hlf
  · exact lineClassFacts_range _ i f hilen h2

/-- The single fact parsing `def f():` followed by an indented return
produces, used as the concrete C9 witness. -/
def sampleParsedFact : FunctionInfo :=
  { name := "f"
    type := "function"
    signature := "def f():"
    docComment := none
    startLine := 1
    endLine := 2
    parameters := some []
    returnType := none
    isExported := true
    isAsync := some false
    accessibility := none }

/-- Witness for C9 at a concrete two-line Python file. -/
theorem parse_line_ranges_within_file_witness :
    1 ≤ sampleParsedFact.startLine ∧
    sampleParsedFact.startLine ≤ sampleParsedFact.endLine ∧
    sampleParsedFact.endLine ≤ lineCount "def f():\n    return 1" :=
  parse_line_ranges_within_file "def f():\n    return 1" sampleParsedFact (by decide)

/-- `clampProgress` is non-negative. -/
theorem clampProgress_nonneg (v : Int) : 0 ≤ clampProgress v := by
  rw [clampProgress]
  omega

/-- `clampProgress` is at most 100. -/
theorem clampProgress_le_100 (v : Int) : clampProgress v ≤ 100 := by
  rw [clampProgress]
  omega

/-- `clampProgress` is monotone. -/
theorem clampProgress_mono {v w : Int} (h : v ≤ w) :
    clampProgress v ≤ clampProgress w := by
  rw [clampProgress, clampProgress]
  omega

/-- `clampProgress` fixes values already in `[0, 100]`. -/
theorem clampProgress_eq_of_mem {v : Int} (h0 : 0 ≤ v) (h1 : v ≤ 100) :
    clampProgress v = v := by
  rw [clampProgress]
  omega

/-- Chain of `≤` across an append, given elementwise cross bounds. -/
theorem chain_le_append {l1 l2 : List Int} (h1 : List.Chain' (· ≤ ·) l1)
    (h2 : List.Chain' (· ≤ ·) l2) (h : ∀ x ∈ l1, ∀ y ∈ l2, x ≤ y) :
    List.Chain' (· ≤ ·) (l1 ++ l2) :=
  List.chain'_append.mpr
    ⟨h1, h2, fun x hx y hy =>
      h x (List.mem_of_getLast?_eq_some hx) y (List.mem_of_mem_head? hy)⟩

/-- Elementwise bounds of the per-batch file-persistence progress values:
each is `50 + floor(40·i/totalFiles)` for a batch start `i < totalFiles`,
hence between 50 and 89. -/
theorem analyze_batch_values_bounds (totalFiles : Nat) :
    ∀ v ∈ (batchStarts 100 totalFiles).map
        (fun i => ((50 + 40 * i / totalFiles : Nat) : Int)),
      50 ≤ v ∧ v ≤ 89 := by
  intro v hv
  obtain ⟨i, hi, rfl⟩ := List.mem_map.mp hv
  have hiN : i < totalFiles := List.mem_range.mp (List.mem_of_mem_filter hi)
  obtain ⟨q, hq⟩ : ∃ q, 40 * i / totalFiles = q := ⟨_, rfl⟩
  have hdiv : q ≤ 39 := by
    rw [← hq]
    have h40 : 40 * i / totalFiles < 40 :=
      Nat.div_lt_of_lt_mul (by omega)
    omega
  rw [hq]
  constructor <;> omega

/-- Elementwise bounds of the per-batch parse progress values: each is
`90 + floor(10·i/storedFiles)` for a batch start `i < storedFiles`, hence
between 90 and 99. -/
theorem analyze_parse_values_bounds (storedFiles : Nat) :
    ∀ v ∈ (batchStarts 50 storedFiles).map
        (fun i => ((90 + 10 * i / storedFiles : Nat) : Int)),
      90 ≤ v ∧ v ≤ 99 := by
  intro v hv
  obtain ⟨i, hi, rfl⟩ := List.mem_map.mp hv
  have hiN : i < storedFiles := List.mem_range.mp (List.mem_of_mem_filter hi)
  obtain ⟨q, hq⟩ : ∃ q, 10 * i / storedFiles = q := ⟨_, rfl⟩
  have hdiv : q ≤ 9 := by
    rw [← hq]
    have h10 : 10 * i / storedFiles < 10 :=
      Nat.div_lt_of_lt_mul (by omega)
    omega
  rw [hq]
  constructor <;> omega

/-- Every value of the analyze progress schedule is in `[0, 100]`, and every
value before the final `100` is at most 99. -/
theorem analyzeProgressValues_bounds (totalFiles storedFiles : Nat) :
    (∀ v ∈ analyzeProgressValues totalFiles storedFiles, 0 ≤ v ∧ v ≤ 100) ∧
    (∀ v ∈ (analyzeProgressValues totalFiles storedFiles).dropLast, v ≤ 99) := by
  have hA := analyze_batch_values_bounds totalFiles
  have hB := analyze_parse_values_bounds storedFiles
  constructor
  · intro v hv
    rw [analyzeProgressValues] at hv
    rcases List.mem_append.mp hv with hv1 | hv4
    · rcases List.mem_append.mp hv1 with hv2 | hv3
      · rcases List.mem_append.mp hv2 with hv0 | hvA
        · simp only [List.mem_cons, List.not_mem_nil, or_false] at hv0
          rcases hv0 with rfl | rfl | rfl <;> omega
        · have := hA v hvA
          omega
      · have := hB v hv3
        omega
    · rw [List.mem_singleton] at hv4
      omega
  · intro v hv
    rw [analyzeProgressValues, List.dropLast_concat] at hv
    rcases List.mem_append.mp hv with hv2 | hv3
    · rcases List.mem_append.mp hv2 with hv0 | hvA
      · simp only [List.mem_cons, List.not_mem_nil, or_false] at hv0
        rcases hv0 with rfl | rfl | rfl <;> omega
      · have := hA v hvA
        omega
    · have := hB v hv3
      omega

/-- The analyze progress schedule is non-decreasing. -/
theorem analyzeProgressValues_chain (totalFiles storedFiles : Nat) :
    List.Chain' (· ≤ ·) (analyzeProgressValues totalFiles storedFiles) := by
  have hA := analyze_batch_values_bounds totalFiles
  have hB := analyze_parse_values_bounds storedFiles
  have hchainA : List.Chain' (· ≤ ·) ((batchStarts 100 totalFiles).map
      (fun i => ((50 + 40 * i / totalFiles : Nat) : Int))) := by
    refine List.Pairwise.chain'
      (List.Pairwise.map _ ?_ ((List.pairwise_lt_range totalFiles).filter _))
    intro a b hab
    have hd : 40 * a / totalFiles ≤ 40 * b / totalFiles :=
      Nat.div_le_div_right (by omega)
    obtain ⟨qa, hqa⟩ : ∃ q, 40 * a / totalFiles = q := ⟨_, rfl⟩
    obtain ⟨qb, hqb⟩ : ∃ q, 40 * b / totalFiles = q := ⟨_, rfl⟩
    rw [hqa, hqb] at hd ⊢
    omega
  have hchainB : List.Chain' (· ≤ ·) ((batchStarts 50 storedFiles).map
      (fun i => ((90 + 10 * i / storedFiles : Nat) : Int))) := by
    refine List.Pairwise.chain'
      (List.Pairwise.map _ ?_ ((List.pairwise_lt_range storedFiles).filter _))
    intro a b hab
    have hd : 10 * a / storedFiles ≤ 10 * b / storedFiles :=
      Nat.div_le_div_right (by omega)
    obtain ⟨qa, hqa⟩ : ∃ q, 10 * a / storedFiles = q := ⟨_, rfl⟩
    obtain ⟨qb, hqb⟩ : ∃ q, 10 * b / storedFiles = q := ⟨_, rfl⟩
    rw [hqa, hqb] at hd ⊢
    omega
  rw [analyzeProgressValues]
  apply chain_le_append
  · apply chain_le_append
    · apply chain_le_append
      · exact List.Pairwise.chain' (by norm_num)
      · exact hchainA
      · intro x hx y hy
        have := hA y hy
        simp only [List.mem_cons, List.not_mem_nil, or_false] at hx
        rcases hx with rfl | rfl | rfl <;> omega
    · exact hchainB
    · intro x hx y hy
      have hyB := hB y hy
      rcases List.mem_append.mp hx with hv0 | hvA
      · simp only [List.mem_cons, List.not_mem_nil, or_false] at hv0
        rcases hv0 with rfl | rfl | rfl <;> omega
      · have := hA x hvA
        omega
  · exact List.chain'_singleton 100
  · intro x hx y hy
    rw [List.mem_singleton] at hy
    subst hy
    rcases List.mem_append.mp hx with hv2 | hv3
    · rcases List.mem_append.mp hv2 with hv0 | hvA
      · simp only [List.mem_cons, List.not_mem_nil, or_false] at hv0
        rcases hv0 with rfl | rfl | rfl <;> omega
      · have := hA x hvA
        omega
    · have := hB x hv3
      omega

/-- The progress views of the states `scanl updateJobProgress` produces. -/
theorem scanl_updateJobProgress_map (j1 : Job) (vals : List Int) :
    (vals.scanl updateJobProgress j1).map Job.progress =
      j1.progress :: vals.map clampProgress := by
  induction vals generalizing j1 with
  | nil => rfl
  | cons v vs ih =>
    rw [List.scanl_cons, List.singleton_append, List.map_cons, ih, List.map_cons]
    rfl

/-- The last state of `scanl` is the `foldl` of the same updates. -/
theorem getLastD_scanl_updateJobProgress (j1 d : Job) (vals : List Int) :
    (vals.scanl updateJobProgress j1).getLastD d =
      vals.foldl updateJobProgress j1 := by
  induction vals generalizing j1 d with
  | nil => rfl
  | cons v vs ih =>
    rw [List.scanl_cons, List.singleton_append, List.getLastD_cons, ih, List.foldl_cons]

/-- Progress after folding a sequence of updates. -/
theorem foldl_updateJobProgress_progress (j1 : Job) (vals : List Int) :
    (vals.foldl updateJobProgress j1).progress =
      (vals.map clampProgress).getLastD j1.progress := by
  induction vals generalizing j1 with
  | nil => rfl
  | cons v vs ih =>
    rw [List.foldl_cons, ih, List.map_cons, List.getLastD_cons]
    rfl

/-- Core facts about one handler execution under `processJob`: the job-state
trace (prefixed with the job's enqueued state) has non-decreasing progress,
and its last state is `completeJob` of the folded updates. -/
theorem handlerRun_props (now : Nat) (j : Job) (updates : List Int)
    (failure : Option String) (hprog : j.progress = 0)
    (hchain : List.Chain' (· ≤ ·) updates) :
    List.Chain' (fun a b => a.progress ≤ b.progress)
      (j :: handlerRun now j updates failure) ∧
    (j :: handlerRun now j updates failure).getLastD j =
      completeJob now (updates.foldl updateJobProgress (startProcessing now j)) failure := by
  have hj1 : (startProcessing now j).progress = 0 := hprog
  have hlast : (updates.scanl updateJobProgress (startProcessing now j)).getLastD
      (startProcessing now j) = updates.foldl updateJobProgress (startProcessing now j) :=
    getLastD_scanl_updateJobProgress _ _ _
  constructor
  · rw [← List.chain'_map Job.progress]
    have hM : List.Chain' (· ≤ ·) (updates.map clampProgress) := by
      rw [List.chain'_map clampProgress]
      exact hchain.imp fun a b h => clampProgress_mono h
    have hMmem : ∀ y ∈ updates.map clampProgress, 0 ≤ y ∧ y ≤ 100 := by
      intro y hy
      obtain ⟨v, _, rfl⟩ := List.mem_map.mp hy
      exact ⟨clampProgress_nonneg v, clampProgress_le_100 v⟩
    have hfinal : 0 ≤ (completeJob now
        (updates.foldl updateJobProgress (startProcessing now j)) failure).progress ∧
        (∀ y, (updates.map clampProgress).getLast? = some y →
          y ≤ (completeJob now
            (updates.foldl updateJobProgress (startProcessing now j)) failure).progress) := by
      cases failure with
      | none =>
        refine ⟨by norm_num [completeJob], ?_⟩
        intro y hy
        have := (hMmem y (List.mem_of_getLast?_eq_some hy)).2
        simpa [completeJob] using this
      | some msg =>
        have hfp : (completeJob now
            (updates.foldl updateJobProgress (startProcessing now j)) (some msg)).progress =
            (updates.map clampProgress).getLastD 0 := by
          show (updates.foldl updateJobProgress (startProcessing now j)).progress = _
          rw [foldl_updateJobProgress_progress, hj1]
        rw [hfp]
        constructor
        · rw [List.getLastD_eq_getLast?]
          cases hy : (updates.map clampProgress).getLast? with
          | none => norm_num
          | some y =>
            have := (hMmem y (List.mem_of_getLast?_eq_some hy)).1
            simpa using this
        · intro y hy
          rw [List.getLastD_eq_getLast?, hy]
          norm_num
    have hmap : ((j :: handlerRun now j updates failure).map Job.progress) =
        0 :: 0 :: (updates.map clampProgress ++
          [(completeJob now
            (updates.foldl updateJobProgress (startProcessing now j)) failure).progress]) := by
      rw [handlerRun, hlast]
      rw [List.map_cons, List.map_append, scanl_updateJobProgress_map, hj1, hprog]
      rfl
    rw [hmap]
    apply List.chain'_cons'.mpr
    refine ⟨?_, ?_⟩
    · intro y hy
      rw [List.head?_cons, Option.mem_some_iff] at hy
      omega
    apply List.chain'_cons'.mpr
    refine ⟨?_, ?_⟩
    · intro y hy
      have hy' := List.mem_of_mem_head? hy
      rcases List.mem_append.mp hy' with hyM | hyF
      · exact (hMmem y hyM).1
      · rw [List.mem_singleton] at hyF
        subst hyF
        exact hfinal.1
    · apply List.chain'_append.mpr
      refine ⟨hM, List.chain'_singleton _, ?_⟩
      intro x hx y hy
      rw [List.head?_cons, Option.mem_some_iff] at hy
      subst hy
      exact hfinal.2 x hx
  · rw [handlerRun, hlast]
    show ((j :: (updates.scanl updateJobProgress (startProcessing now j))) ++
      [completeJob now (updates.foldl updateJobProgress (startProcessing now j)) failure]).getLastD j = _
    rw [List.getLastD_concat]

/-- Members of a proper prefix of a list are members of its `dropLast`. -/
theorem mem_take_mem_dropLast {l : List Int} {k : Nat} (hk : k < l.length)
    {v : Int} (hv : v ∈ l.take k) : v ∈ l.dropLast := by
  have heq : l.take k = (l.dropLast).take k := by
    rw [List.dropLast_eq_take, List.take_take]
    congr 1
    omega
  rw [heq] at hv
  exact List.take_subset k l.dropLast hv

/-- C3: for a job run by the registered analysis handler (whose progress
updates follow `handleAnalyzeJob`'s schedule, truncated at the failure
point when the pipeline throws), the progress values observed over the
job's lifetime — from the enqueued state, through `updateJobProgress`'s
clamping, to the terminal completion — are non-decreasing, and the final
progress is 100 exactly when the final status is `completed`. -/
theorem analyze_job_progress_monotone_and_terminal
    (now totalFiles storedFiles : Nat) (failAfter : Option (Nat × JsError)) (j : Job)
    (hprog : j.progress = 0)
    (hfail : ∀ k e, failAfter = some (k, e) →
      k < (analyzeProgressValues totalFiles storedFiles).length) :
    List.Chain' (fun a b => a.progress ≤ b.progress)
      (j :: analyzeJobTrace now totalFiles storedFiles failAfter j) ∧
    (((j :: analyzeJobTrace now totalFiles storedFiles failAfter j).getLastD j).progress = 100 ↔
      ((j :: analyzeJobTrace now totalFiles storedFiles failAfter j).getLastD j).status =
        JobStatus.completed) := by
  have hbounds := analyzeProgressValues_bounds totalFiles storedFiles
  have hchain := analyzeProgressValues_chain totalFiles storedFiles
  cases failAfter with
  | none =>
    rw [analyzeJobTrace]
    have h := handlerRun_props now j (analyzeProgressValues totalFiles storedFiles)
      none hprog hchain
    refine ⟨h.1, ?_⟩
    rw [h.2]
    constructor
    · intro _
      rfl
    · intro _
      rfl
  | some ke =>
    obtain ⟨k, e⟩ := ke
    have hk : k < (analyzeProgressValues totalFiles storedFiles).length :=
      hfail k e rfl
    rw [analyzeJobTrace]
    have htake_chain := hchain.take k
    have h := handlerRun_props now j
      ((analyzeProgressValues totalFiles storedFiles).take k)
      (some (jsErrorMessage e)) hprog htake_chain
    refine ⟨h.1, ?_⟩
    rw [h.2]
    have hstatus : (completeJob now
        (((analyzeProgressValues totalFiles storedFiles).take k).foldl
          updateJobProgress (startProcessing now j)) (some (jsErrorMessage e))).status =
        JobStatus.failed := rfl
    have hprogress : (completeJob now
        (((analyzeProgressValues totalFiles storedFiles).take k).foldl
          updateJobProgress (startProcessing now j)) (some (jsErrorMessage e))).progress ≠ 100 := by
      show (((analyzeProgressValues totalFiles storedFiles).take k).foldl
        updateJobProgress (startProcessing now j)).progress ≠ 100
      rw [foldl_updateJobProgress_progress,
        show (startProcessing now j).progress = 0 from hprog]
      rw [List.getLastD_eq_getLast?]
      cases hy : (((analyzeProgressValues totalFiles storedFiles).take k).map
          clampProgress).getLast? with
      | none => norm_num
      | some y =>
        have hymem := List.mem_of_getLast?_eq_some hy
        obtain ⟨v, hv, rfl⟩ := List.mem_map.mp hymem
        have hv99 : v ≤ 99 := hbounds.2 v (mem_take_mem_dropLast hk hv)
        have hv0 : 0 ≤ v := (hbounds.1 v (List.take_subset k _ hv)).1
        rw [clampProgress_eq_of_mem hv0 (by omega)]
        simp only [Option.getD_some]
        omega
    rw [hstatus]
    constructor
    · intro habs
      exact absurd habs hprogress
    · intro habs
      cases habs

/-- Witness for C3 at a concrete successful analyze run (one file batch, one
parse batch, no failure). -/
theorem analyze_job_progress_monotone_and_terminal_witness :
    List.Chain' (fun a b => a.progress ≤ b.progress)
      (sampleJob :: analyzeJobTrace 1 1 1 none sampleJob) ∧
    (((sampleJob :: analyzeJobTrace 1 1 1 none sampleJob).getLastD sampleJob).progress = 100 ↔
      ((sampleJob :: analyzeJobTrace 1 1 1 none sampleJob).getLastD sampleJob).status =
        JobStatus.completed) :=
  analyze_job_progress_monotone_and_terminal 1 1 1 none sampleJob (by decide)
    (by intro k e h; cases h)

/-- Witness for C1 at a concrete unparsable TypeScript input: babel fails,
`parseFile` returns the empty-but-valid result. -/
theorem extractFor_null_iff_unsupported_or_throw_witness :
    ".ts" ∈ tsSupportedExtensions ∧
    parseFile
      (@parsers Unit (fun _ => .error (.err "Unexpected token"))
        (fun _ _ => .ok emptyTsResult))
      "const x = (" ".ts" = some emptyTsResult :=
  ⟨by decide,
   (@extractFor_null_iff_unsupported_or_throw Unit
      (fun _ => .error (.err "Unexpected token")) (fun _ _ => .ok emptyTsResult)
      "const x = (" ".ts").2 (by decide) (.err "Unexpected token") rfl⟩

end CodeCompass
